import Mathlib

/-!
Verification development for the PixMo photo-mosaic application.

The repository's frontend (`frontend/src/App.tsx` and its earlier
revisions) is embedded directly.  The Python backend (tile index,
material pipeline, mosaic synthesis engine, job scheduler) is not part
of the provided sources; where a property depends on it, the relevant
operation is modelled from the specification, and each such definition
is marked `Modelled from the spec:` in its doc comment.
-/

namespace PixMo

/-! ## Job status and the job state machine -/

/-- Job status values, from `type JobStatus` in `App.tsx`:
`"queued" | "running" | "done" | "error"`. -/
inductive JobStatus where
  | queued
  | running
  | done
  | error
  deriving DecidableEq, Repr

/-- A status is terminal when it is `done` or `error`; this is the test
the client poll loop performs (`data.status === "done" || data.status === "error"`). -/
def JobStatus.isTerminal : JobStatus → Bool
  | .done => true
  | .error => true
  | _ => false

/-- Modelled from the spec: the MosaicJob lifecycle transition relation of
the Job Scheduler (backend, not under the provided sources):
`queued --(worker picks up)--> running --(success)--> done`;
`running --(any failure)--> error`; no transition leaves `done`/`error`. -/
inductive JobStep : JobStatus → JobStatus → Prop where
  | start : JobStep .queued .running
  | finish : JobStep .running .done
  | fail : JobStep .running .error

/-- Modelled from the spec: polling a job (`get(job id)`) returns the current
snapshot and leaves the job registry unchanged — polling is a pure read. -/
def pollJob (registry : String → JobStatus × Nat × String) (id : String) :
    (JobStatus × Nat × String) × (String → JobStatus × Nat × String) :=
  (registry id, registry)

/-- The client poll loop from `App.tsx` (the `useEffect` at the job-polling
interval): each tick reads the job status; on observing `done` or `error`
it clears the interval, so no further statuses are observed.  Given the
sequence of statuses the server would return on successive ticks, this
computes the list of statuses the client actually observes. -/
def pollObserved : List JobStatus → List JobStatus
  | [] => []
  | s :: rest => if s.isTerminal then [s] else s :: pollObserved rest

/-! ## Session identity (`getOrCreateSessionId`) -/

/-- Embedding of `getOrCreateSessionId` from `App.tsx`:
reads `localStorage.getItem("pixmo_session_id")`; if the stored value is
truthy (a non-null, non-empty string) it is returned and storage is left
unchanged; otherwise a fresh id (`crypto.randomUUID()`) is stored and
returned.  The storage slot is modelled as an `Option String`, and the
fresh id the runtime would generate is passed explicitly. -/
def getOrCreateSessionId (store : Option String) (freshId : String) :
    String × Option String :=
  match store with
  | some existing =>
      if existing = "" then (freshId, some freshId) else (existing, store)
  | none => (freshId, some freshId)

/-! ## `apiFetch` and the session header -/

/-- Header names are matched case-insensitively by the `Headers` web API;
names are normalized to lower case. -/
def headerName (s : String) : String := s.toLower

/-- Semantics of `Headers.set`: after `set(name, value)` the header list holds
exactly one entry for the (normalized) name, with the given value; entries
for other names are untouched. -/
def headersSet (hs : List (String × String)) (name value : String) :
    List (String × String) :=
  hs.filter (fun p => p.1 ≠ headerName name) ++ [(headerName name, value)]

/-- A `Headers.get` style view: the list of values carried for a (normalized)
header name. -/
def headersGetValues (hs : List (String × String)) (name : String) : List String :=
  (hs.filter (fun p => p.1 = headerName name)).map Prod.snd

/-- Embedding of `apiUrl` from `App.tsx`: prefixes a path with `VITE_API_BASE`
(trailing slash stripped) when a base is configured. -/
def apiUrl (apiBase : String) (path : String) : String :=
  if apiBase = "" then path
  else (if apiBase.endsWith ("/") then apiBase.dropRight 1 else apiBase) ++ path

/-- A fetch input: either a string URL or a non-string (`Request`/`URL`)
object, of which only the carried URL matters here. -/
inductive FetchInput where
  | str (s : String)
  | obj (url : String)

/-- An outgoing HTTP request: the URL fetched and the headers attached. -/
structure HttpRequest where
  url : String
  headers : List (String × String)

/-- Embedding of `apiFetch` from `App.tsx`: builds a `Headers` object from
`init?.headers ?? {}` (names normalized), sets `X-Session-Id` to the
session id, and fetches — through `apiUrl` when the input is a string
beginning with `/`, directly otherwise. -/
def apiFetch (apiBase sessionId : String) (input : FetchInput)
    (initHeaders : List (String × String)) : HttpRequest :=
  let headers := headersSet (initHeaders.map (fun p => (headerName p.1, p.2)))
    "X-Session-Id" sessionId
  match input with
  | .str s =>
      if s.startsWith ("/") then ⟨apiUrl apiBase s, headers⟩ else ⟨s, headers⟩
  | .obj u => ⟨u, headers⟩

/-! ## Material sets and job submission (`startJob`) -/

/-- Material-set status, from `type Material` in `App.tsx`:
`"queued" | "processing" | "ready" | "error"`. -/
inductive MaterialStatus where
  | queued
  | processing
  | ready
  | error
  deriving DecidableEq, Repr

/-- A material set as the client sees it (`type Material` in `App.tsx`). -/
structure Material where
  id : String
  name : String
  status : MaterialStatus
  progress : Nat
  message : String
  count : Nat
  deriving DecidableEq, Repr

/-- The form data a job submission posts to `/api/jobs` (`startJob` in
`App.tsx`). -/
structure JobForm where
  target_id : String
  material_id : String
  tile_size : Nat
  no_repeat_k : Nat
  color_strength : ℚ
  overlay_strength : ℚ
  deriving DecidableEq, Repr

/-- Outcome of the client's `startJob`: an alert with no submission, or a
submitted form. -/
inductive StartJobOutcome where
  | missingSelection
  | notReady
  | submitted (form : JobForm)
  deriving DecidableEq, Repr

/-- Embedding of `startJob` from `App.tsx`: returns without submitting when no target or
material is selected; looks the selected material up and returns without
submitting when it is found and not `ready`; otherwise posts the form,
with `overlay_strength` equal to `overlayEnabled ? overlayStrength : 0`. -/
def startJob (materials : List Material)
    (selectedTarget selectedMaterial : String)
    (tileSize noRepeatK : Nat) (colorStrength overlayStrength : ℚ)
    (overlayEnabled : Bool) : StartJobOutcome :=
  if selectedTarget = "" ∨ selectedMaterial = "" then .missingSelection
  else
    match materials.find? (fun m => m.id = selectedMaterial) with
    | some m =>
        if m.status ≠ .ready then .notReady
        else .submitted ⟨selectedTarget, selectedMaterial, tileSize, noRepeatK,
          colorStrength, if overlayEnabled then overlayStrength else 0⟩
    | none => .submitted ⟨selectedTarget, selectedMaterial, tileSize, noRepeatK,
        colorStrength, if overlayEnabled then overlayStrength else 0⟩

/-- Error taxonomy of the API boundary (spec §7). -/
inductive ApiError where
  | invalidInput
  | preconditionFailed
  | resourceExhausted
  | internalFault
  deriving DecidableEq, Repr

/-- Status and tile count of a tile index as the server sees it. -/
structure TileIndexMeta where
  status : MaterialStatus
  count : Nat
  deriving DecidableEq, Repr

/-- Modelled from the spec: the server-side check performed when a mosaic
job is created (backend `startJob`, not under the provided sources):
synthesizing against an empty or non-`ready` tile index fails with a
`PreconditionFailed` condition and no job is submitted. -/
def startJobServer (idx : TileIndexMeta) (jobId : String) :
    Except ApiError String :=
  if idx.status ≠ .ready ∨ idx.count = 0 then .error .preconditionFailed
  else .ok jobId

/-! ## Result retrieval (`resultUrl`) -/

/-- Embedding of `resultUrl` from `App.tsx`: `null` unless a job id is present (truthy)
and the status is exactly `"done"`; otherwise the result URL
`/api/jobs/ID/result?v=TS` with a cache-busting timestamp. -/
def resultUrl (jobId : Option String) (status : Option JobStatus) (now : Nat) :
    Option String :=
  match jobId with
  | none => none
  | some id =>
      if id = "" ∨ status ≠ some .done then none
      else some ("/api/jobs/" ++ id ++ "/result?v=" ++ toString now)

/-- Modelled from the spec: the store holding each done job's produced
result bytes. -/
structure ResultStore where
  bytes : String → Option (List Nat)

/-- Modelled from the spec: result retrieval for a job id reads the stored
result bytes as a byte stream and does not modify the store — retrieval is
a pure read. -/
def retrieveResult (st : ResultStore) (jobId : String) :
    Option (List Nat) × ResultStore :=
  (st.bytes jobId, st)

/-! ## Mosaic synthesis engine (modelled from the spec)

The synthesis engine is backend code not under the provided sources; the
definitions below are modelled from the specification's algorithm (§4.3):
grid partition with truncated remainder cells, per-cell average color,
minimum-color-distance tile selection with the `noRepeatK` scan-order
exclusion (waived only when it would leave zero candidates), deterministic
resampling, per-channel linear color correction, and a final uniform
overlay blend. -/

/-- An RGB color with integer channels. -/
abbrev Color := ℤ × ℤ × ℤ

/-- Modelled from the spec: color distance as the sum of squared channel
differences. -/
def colorDist (a b : Color) : ℤ :=
  (a.1 - b.1) ^ 2 + (a.2.1 - b.2.1) ^ 2 + (a.2.2 - b.2.2) ^ 2

/-- Modelled from the spec: a TileDescriptor — stable identifier, average
color summary, native dimensions and decoded pixel buffer. -/
structure Tile where
  id : Nat
  avg : Color
  width : Nat
  height : Nat
  pix : Nat → Nat → Color

/-- Modelled from the spec: running minimum of the color-distance scan —
keep the incumbent unless a strictly closer tile appears (so the earliest
of the minima wins ties). -/
def pickBestFold (cell : Color) (first : Tile) (rest : List Tile) : Tile :=
  rest.foldl (fun best u =>
    if colorDist cell u.avg < colorDist cell best.avg then u else best) first

/-- Modelled from the spec: choose the minimum-distance tile from a list;
`none` only on an empty list. -/
def pickBest (cell : Color) : List Tile → Option Tile
  | [] => none
  | t :: ts => some (pickBestFold cell t ts)

/-- Modelled from the spec: tile selection for one cell — tiles whose
identifier appears among the last `K` assignments (`hist` holds the most
recent assignment first) are excluded, unless excluding them would leave
zero candidates, in which case the constraint is waived for this cell. -/
def selectTile (tiles : List Tile) (K : Nat) (hist : List Nat) (cell : Color) :
    Option Tile :=
  pickBest cell
    (if (tiles.filter (fun t => !((hist.take K).contains t.id))).isEmpty
     then tiles
     else tiles.filter (fun t => !((hist.take K).contains t.id)))

/-- Modelled from the spec: assign a tile to each cell in row-major scan
order, threading the assignment history; returns the chosen tile ids in
scan order. -/
def runAssign (tiles : List Tile) (K : Nat) : List Nat → List Color → List Nat
  | _, [] => []
  | hist, c :: cs =>
      match selectTile tiles K hist c with
      | none => []
      | some t => t.id :: runAssign tiles K (t.id :: hist) cs

/-- Number of grid cells along an axis of length `len` with cell edge `t`:
the final cell may be a truncated remainder. -/
def gridCount (len t : Nat) : Nat := (len + t - 1) / t

/-- The starting offsets of the grid cells along one axis. -/
def cellStarts (len t : Nat) : List Nat :=
  (List.range (gridCount len t)).map (fun i => i * t)

/-- The extent of the cell starting at offset `x0`: a full `t`, or the
truncated remainder cropped to fit. -/
def cellSize (len t x0 : Nat) : Nat := min t (len - x0)

/-- One grid cell of the target: origin and (possibly truncated) size. -/
structure Cell where
  x0 : Nat
  y0 : Nat
  w : Nat
  h : Nat
  deriving DecidableEq, Repr

/-- All grid cells of a `W × H` target with cell edge `t`, row-major. -/
def cellsOf (W H t : Nat) : List Cell :=
  (cellStarts H t).flatMap (fun y0 =>
    (cellStarts W t).map (fun x0 => ⟨x0, y0, cellSize W t x0, cellSize H t y0⟩))

/-- Whether pixel `(x, y)` lies inside cell `c`. -/
def cellContains (c : Cell) (x y : Nat) : Bool :=
  decide (c.x0 ≤ x) && decide (x < c.x0 + c.w) &&
    decide (c.y0 ≤ y) && decide (y < c.y0 + c.h)

/-- The extent the placed cells paint along one axis: the maximum of
`start + size` over the axis's cells. -/
def paintedExtent (len t : Nat) : Nat :=
  ((cellStarts len t).map (fun x0 => x0 + cellSize len t x0)).foldr max 0

/-- A decoded raster image: dimensions and a pixel buffer. -/
structure Img where
  width : Nat
  height : Nat
  pix : Nat → Nat → Color

/-- An image with rational channels, as produced by the blending steps. -/
structure ImgQ where
  width : Nat
  height : Nat
  pix : Nat → Nat → ℚ × ℚ × ℚ

/-- Channel-wise sum of the pixels of a cell's region of the target. -/
def regionSum (img : Img) (c : Cell) : Color :=
  (List.range c.h).foldr (fun y acc =>
    (List.range c.w).foldr (fun x acc' =>
      let p := img.pix (c.x0 + x) (c.y0 + y)
      (acc'.1 + p.1, acc'.2.1 + p.2.1, acc'.2.2 + p.2.2)) acc) (0, 0, 0)

/-- Modelled from the spec: the cell's average target color (integer
division by the pixel count). -/
def avgColor (img : Img) (c : Cell) : Color :=
  let s := regionSum img c
  let n : ℤ := (c.w * c.h : ℕ)
  (s.1 / n, s.2.1 / n, s.2.2 / n)

/-- Modelled from the spec: deterministic nearest-neighbor resampling of a
tile to the cell size `cw × ch`. -/
def resamplePix (t : Tile) (cw ch x y : Nat) : Color :=
  t.pix (x * t.width / cw) (y * t.height / ch)

/-- Modelled from the spec: per-channel linear color correction toward the
cell's average target color by factor `s` (result rounded down). -/
def correctChan (s : ℚ) (p a : ℤ) : ℤ := Int.floor ((p : ℚ) + s * ((a : ℚ) - (p : ℚ)))

/-- Color correction applied to all three channels. -/
def correctColor (s : ℚ) (p a : Color) : Color :=
  (correctChan s p.1 a.1, correctChan s p.2.1 a.2.1, correctChan s p.2.2 a.2.2)

/-- Modelled from the spec: assemble the mosaic — partition the target into
cells, assign each cell a tile in scan order under the no-repeat
constraint, resample it to the (possibly cropped) cell size, color-correct
it toward the cell average, and composite it at the cell's position. -/
def assembleMosaic (target : Img) (tiles : List Tile) (tileSize K : Nat)
    (colorStrength : ℚ) : Img :=
  let cells := cellsOf target.width target.height tileSize
  let ids := runAssign tiles K [] (cells.map (avgColor target))
  { width := paintedExtent target.width tileSize
    height := paintedExtent target.height tileSize
    pix := fun x y =>
      match (cells.zip ids).find? (fun p => cellContains p.1 x y) with
      | some (c, tid) =>
          match tiles.find? (fun t => t.id = tid) with
          | some t => correctColor colorStrength
              (resamplePix t c.w c.h (x - c.x0) (y - c.y0)) (avgColor target c)
          | none => (0, 0, 0)
      | none => (0, 0, 0) }

/-- Modelled from the spec: one channel of the uniform per-pixel linear
overlay blend of the original target over the assembled mosaic. -/
def blendChan (s : ℚ) (m t : ℤ) : ℚ := (m : ℚ) + s * ((t : ℚ) - (m : ℚ))

/-- Overlay blend of a whole pixel. -/
def blendColor (s : ℚ) (m t : Color) : ℚ × ℚ × ℚ :=
  (blendChan s m.1 t.1, blendChan s m.2.1 t.2.1, blendChan s m.2.2 t.2.2)

/-- A color with integer channels viewed with rational channels. -/
def ratColor (c : Color) : ℚ × ℚ × ℚ := ((c.1 : ℚ), (c.2.1 : ℚ), (c.2.2 : ℚ))

/-- Modelled from the spec: after all cells are placed, blend the entire
original target over the assembled mosaic with uniform factor `s`. -/
def applyOverlay (s : ℚ) (target mosaic : Img) : ImgQ :=
  { width := mosaic.width
    height := mosaic.height
    pix := fun x y => blendColor s (mosaic.pix x y) (target.pix x y) }

/-- Modelled from the spec: the full synthesis — assemble the mosaic, then
apply the overlay blend. -/
def synthesize (target : Img) (tiles : List Tile) (tileSize K : Nat)
    (colorStrength overlayStrength : ℚ) : ImgQ :=
  applyOverlay overlayStrength target
    (assembleMosaic target tiles tileSize K colorStrength)

/-- Concrete tile index used by witnesses: three tiles with distinct ids. -/
def demoTiles : List Tile :=
  [⟨0, (0, 0, 0), 1, 1, fun _ _ => (0, 0, 0)⟩,
   ⟨1, (10, 0, 0), 1, 1, fun _ _ => (10, 0, 0)⟩,
   ⟨2, (50, 50, 50), 1, 1, fun _ _ => (50, 50, 50)⟩]

/-- Concrete cell colors used by witnesses: five cells all nearest the
same tile. -/
def demoCells : List Color := [(0, 0, 0), (0, 0, 0), (0, 0, 0), (1, 1, 1), (2, 2, 2)]

/-- Concrete target image used by witnesses. -/
def demoTarget : Img := ⟨100, 100, fun _ _ => (7, 7, 7)⟩

/-! ## UI parameter state (sliders in `App.tsx`) -/

/-- The job-parameter state held by the `App` component (`useState` hooks
in `App.tsx`). -/
structure UiParams where
  tileSize : Nat
  noRepeatK : Nat
  colorStrength : ℚ
  overlayStrength : ℚ
  overlayEnabled : Bool
  deriving DecidableEq, Repr

/-- The initial slider values from `App.tsx`: `tileSize = 64`,
`noRepeatK = 15`, `colorStrength = 0.35`, `overlayStrength = 0.2`,
overlay off. -/
def initialUiParams : UiParams := ⟨64, 15, 7 / 20, 1 / 5, false⟩

/-- A user interaction with one of the parameter controls. -/
inductive UiEvent where
  | setTileSize (v : Nat)
  | setNoRepeatK (v : Nat)
  | setColorStrength (v : ℚ)
  | setOverlayStrength (v : ℚ)
  | setOverlayEnabled (b : Bool)
  deriving DecidableEq, Repr

/-- The constraint each range input enforces on the values it can emit,
from its `min`/`max`/`step` attributes in `App.tsx`: tile size 8–256,
no-repeat 0–30, both strengths 0–1. -/
def UiEvent.valid : UiEvent → Bool
  | .setTileSize v => decide (8 ≤ v) && decide (v ≤ 256)
  | .setNoRepeatK v => decide (v ≤ 30)
  | .setColorStrength v => decide (0 ≤ v) && decide (v ≤ 1)
  | .setOverlayStrength v => decide (0 ≤ v) && decide (v ≤ 1)
  | .setOverlayEnabled _ => true

/-- The `onChange` handlers of `App.tsx`: each event replaces one field of
the parameter state. -/
def applyUiEvent (s : UiParams) : UiEvent → UiParams
  | .setTileSize v => { s with tileSize := v }
  | .setNoRepeatK v => { s with noRepeatK := v }
  | .setColorStrength v => { s with colorStrength := v }
  | .setOverlayStrength v => { s with overlayStrength := v }
  | .setOverlayEnabled b => { s with overlayEnabled := b }

/-- The documented bounds on a MosaicParameters bundle: `tileSize` in
[8, 256], `noRepeatK` a non-negative integer, both strengths in [0, 1]. -/
def paramsInBounds (s : UiParams) : Prop :=
  8 ≤ s.tileSize ∧ s.tileSize ≤ 256 ∧ (0 : ℤ) ≤ (s.noRepeatK : ℤ) ∧
    0 ≤ s.colorStrength ∧ s.colorStrength ≤ 1 ∧
    0 ≤ s.overlayStrength ∧ s.overlayStrength ≤ 1

/-! ## Job progress reporting (modelled from the spec) -/

/-- Modelled from the spec: the sequence of `(status, progress)` snapshots
a progress-reporting job emits while completing `N` work units — progress
is the fraction of units completed scaled to [0,100), with 100 reserved
for full completion.  `i` counts completed units; `k` is the remaining
unit count. -/
def progressGo {S : Type} (running finished : S) (N : Nat) :
    Nat → Nat → List (S × Nat)
  | _, 0 => [(finished, 100)]
  | i, k + 1 => (running, i * 100 / N) :: progressGo running finished N (i + 1) k

/-- Modelled from the spec: the full snapshot trace of a successful job —
created queued at progress 0, then the engine snapshots, ending finished
at 100. -/
def progressTrace {S : Type} (queuedS runningS finishedS : S) (N : Nat) :
    List (S × Nat) :=
  (queuedS, 0) :: progressGo runningS finishedS N 0 N

/-- The snapshot trace of a successful mosaic job over `N` cells. -/
def mosaicProgressTrace (N : Nat) : List (JobStatus × Nat) :=
  progressTrace .queued .running .done N

/-- The snapshot trace of a successful material-ingest job over `N`
archive entries. -/
def ingestProgressTrace (N : Nat) : List (MaterialStatus × Nat) :=
  progressTrace .queued .processing .ready N

/-- Concrete result store used by witnesses. -/
def demoStore : ResultStore := ⟨fun _ => some [1, 2, 3]⟩

/-- Modelled from the spec: the snapshots a failing job emits — a running
snapshot per completed unit, threading the last reported progress so that
on failure the `error` snapshot holds it (spec 4.3: "job remains in its
last reported progress").  `last` is the progress last reported, `i`
counts completed units, `k` the snapshots still to be emitted before the
failure. -/
def failGo {S : Type} (running failedS : S) (N : Nat) :
    Nat → Nat → Nat → List (S × Nat)
  | last, _, 0 => [(failedS, last)]
  | _, i, k + 1 =>
      (running, i * 100 / N) :: failGo running failedS N (i * 100 / N) (i + 1) k

/-- Modelled from the spec: the full snapshot trace of a job that fails
after emitting `f` running snapshots of its `N` work units — created
queued at progress 0, then the engine snapshots, then `error` at the last
reported progress. -/
def failTrace {S : Type} (queuedS runningS failedS : S) (N f : Nat) :
    List (S × Nat) :=
  (queuedS, 0) :: failGo runningS failedS N 0 0 f

/-- The snapshot trace of a mosaic job over `N` cells that fails after `f`
snapshots. -/
def mosaicFailTrace (N f : Nat) : List (JobStatus × Nat) :=
  failTrace .queued .running .error N f

/-- The snapshot trace of a material-ingest job over `N` entries that
fails after `f` snapshots. -/
def ingestFailTrace (N f : Nat) : List (MaterialStatus × Nat) :=
  failTrace .queued .processing .error N f

/-! ## Properties -/

lemma pollObserved_count_terminal (l : List JobStatus) :
    (pollObserved l).countP (fun s => s.isTerminal) ≤ 1 := by
  induction l with
  | nil => simp [pollObserved]
  | cons s rest ih =>
    by_cases h : s.isTerminal
    · simp [pollObserved, h, List.countP_cons]
    · simp only [pollObserved, h, if_neg, Bool.false_eq_true, not_false_iff, if_false]
      rw [List.countP_cons]
      simp [h, ih]

/-- C1:  For every mosaic job the status follows the state machine
`queued → running → exactly one of done or error`: every transition is one
of these three, and no transition leaves a terminal status, so once the
status is `done` or `error` it never changes again.  Polling is idempotent
and has no side effect on job state (the registry is returned unchanged and
two successive polls return the same snapshot).  The client's poll loop
observes a terminal status at most once before it stops polling. -/
theorem job_state_machine_and_poll_loop :
    (∀ s s' : JobStatus, JobStep s s' →
      (s = .queued ∧ s' = .running) ∨ (s = .running ∧ (s' = .done ∨ s' = .error))) ∧
    (∀ s s' : JobStatus, s.isTerminal = true → ¬ JobStep s s') ∧
    (∀ registry id, (pollJob registry id).2 = registry ∧
      (pollJob (pollJob registry id).2 id).1 = (pollJob registry id).1) ∧
    (∀ l : List JobStatus,
      (pollObserved l).countP (fun s => s.isTerminal) ≤ 1) := by
  refine ⟨?_, ?_, ?_, ?_⟩
  · intro s s' h
    cases h with
    | start => exact Or.inl ⟨rfl, rfl⟩
    | finish => exact Or.inr ⟨rfl, Or.inl rfl⟩
    | fail => exact Or.inr ⟨rfl, Or.inr rfl⟩
  · intro s s' hterm hstep
    cases hstep <;> simp [JobStatus.isTerminal] at hterm
  · intro registry id
    exact ⟨rfl, rfl⟩
  · exact pollObserved_count_terminal

/-- Witness for C1 at concrete inputs: the `queued → running` transition
is one of the state machine's transitions, a concrete poll leaves a
concrete registry unchanged, and a concrete poll sequence shows at most
one observed terminal status. -/
theorem job_state_machine_and_poll_loop_witness :
    ((JobStatus.queued = .queued ∧ JobStatus.running = .running) ∨
      (JobStatus.queued = .running ∧
        (JobStatus.running = .done ∨ JobStatus.running = .error))) ∧
    (pollJob (fun _ => (.queued, 0, "")) ("j1")).2 = (fun _ => (.queued, 0, "")) ∧
    (pollObserved [.queued, .running, .done, .running]).countP
      (fun s => s.isTerminal) ≤ 1 :=
  ⟨job_state_machine_and_poll_loop.1 .queued .running JobStep.start,
    (job_state_machine_and_poll_loop.2.2.1 (fun _ => (.queued, 0, "")) ("j1")).1,
    job_state_machine_and_poll_loop.2.2.2 [.queued, .running, .done, .running]⟩

/-- C9:  `getOrCreateSessionId` is idempotent: on empty storage the first
call generates, stores and returns the fresh id; on storage holding a
(truthy) id every call returns that id and leaves storage unchanged; and
for any starting storage, two consecutive calls return equal values and the
second call does not change storage, provided the generated ids are
non-empty (as `crypto.randomUUID()` always is). -/
theorem getOrCreateSessionId_idempotent :
    (∀ freshId : String, getOrCreateSessionId none freshId = (freshId, some freshId)) ∧
    (∀ s freshId : String, s ≠ "" →
      getOrCreateSessionId (some s) freshId = (s, some s)) ∧
    (∀ (store : Option String) (f₁ f₂ : String), f₁ ≠ "" →
      (getOrCreateSessionId (getOrCreateSessionId store f₁).2 f₂).1 =
        (getOrCreateSessionId store f₁).1 ∧
      (getOrCreateSessionId (getOrCreateSessionId store f₁).2 f₂).2 =
        (getOrCreateSessionId store f₁).2) := by
  refine ⟨fun _ => rfl, ?_, ?_⟩
  · intro s freshId hs
    simp [getOrCreateSessionId, hs]
  · intro store f₁ f₂ h₁
    match store with
    | none => simp [getOrCreateSessionId, h₁]
    | some s =>
        by_cases hs : s = ""
        · simp [getOrCreateSessionId, hs, h₁]
        · simp [getOrCreateSessionId, hs]

/-- Witness for C9 at concrete inputs: storage holding `"abc"` returns
`"abc"` unchanged, and two consecutive calls from empty storage with fresh
id `"u1"` then `"u2"` agree. -/
theorem getOrCreateSessionId_idempotent_witness :
    getOrCreateSessionId (some ("abc")) ("u1") = ("abc", some ("abc")) ∧
    ((getOrCreateSessionId (getOrCreateSessionId none ("u1")).2 ("u2")).1 =
        (getOrCreateSessionId none ("u1")).1 ∧
      (getOrCreateSessionId (getOrCreateSessionId none ("u1")).2 ("u2")).2 =
        (getOrCreateSessionId none ("u1")).2) :=
  ⟨getOrCreateSessionId_idempotent.2.1 ("abc") ("u1") (by decide),
    getOrCreateSessionId_idempotent.2.2 none ("u1") ("u2") (by decide)⟩

lemma headersGetValues_headersSet (hs : List (String × String)) (name value : String) :
    headersGetValues (headersSet hs name value) name = [value] := by
  unfold headersGetValues headersSet
  rw [List.filter_append]
  have h₁ : (hs.filter (fun p => p.1 ≠ headerName name)).filter
      (fun p => p.1 = headerName name) = [] := by
    rw [List.filter_eq_nil_iff]
    intro p hp
    have := List.of_mem_filter hp
    simpa using this
  have h₂ : [(headerName name, value)].filter (fun p => p.1 = headerName name) =
      [(headerName name, value)] := by simp
  rw [h₁, h₂]
  simp

/-- C10:  Every HTTP request issued through `apiFetch` carries an
`X-Session-Id` header whose sole value is the session's id, for every API
base, session id, fetch input and caller-supplied `init` headers. -/
theorem apiFetch_carries_session_header
    (apiBase sessionId : String) (input : FetchInput)
    (initHeaders : List (String × String)) :
    headersGetValues (apiFetch apiBase sessionId input initHeaders).headers
      "X-Session-Id" = [sessionId] := by
  match input with
  | .str s =>
      by_cases h : s.startsWith ("/") <;>
        simp [apiFetch, h, headersGetValues_headersSet]
  | .obj u => simpa [apiFetch] using headersGetValues_headersSet _ ("X-Session-Id") sessionId

/-- C5:  Starting a mosaic job against an empty or non-ready material
set fails with a `PreconditionFailed` condition and no job is submitted:
the client's `startJob` refuses to post when the selected material is not
`ready`, the server's job creation rejects an empty or non-`ready` tile
index with `PreconditionFailed`, and a job id is returned only when the
tile index is `ready` and non-empty. -/
theorem startJob_requires_ready_material :
    (∀ (materials : List Material) (st sm : String) (ts k : Nat)
      (cs os : ℚ) (ov : Bool) (m : Material),
      st ≠ "" → sm ≠ "" →
      materials.find? (fun m => m.id = sm) = some m → m.status ≠ .ready →
      startJob materials st sm ts k cs os ov = .notReady) ∧
    (∀ (idx : TileIndexMeta) (jobId : String),
      idx.status ≠ .ready ∨ idx.count = 0 →
      startJobServer idx jobId = .error .preconditionFailed) ∧
    (∀ (idx : TileIndexMeta) (jobId newId : String),
      startJobServer idx jobId = .ok newId →
      idx.status = .ready ∧ idx.count ≠ 0) := by
  refine ⟨?_, ?_, ?_⟩
  · intro materials st sm ts k cs os ov m hst hsm hfind hstatus
    unfold startJob
    rw [if_neg (by simp [hst, hsm]), hfind]
    simp [hstatus]
  · intro idx jobId h
    unfold startJobServer
    rw [if_pos h]
  · intro idx jobId newId h
    unfold startJobServer at h
    by_cases hc : idx.status ≠ .ready ∨ idx.count = 0
    · rw [if_pos hc] at h; cases h
    · push_neg at hc
      exact hc

/-- Witness for C5 at concrete inputs: a selected material set in
`processing` state blocks the client submission, and a server-side index
with zero tiles is rejected with `PreconditionFailed`. -/
theorem startJob_requires_ready_material_witness :
    startJob [⟨"m1", "mats", .processing, 40, "", 0⟩] "t1" "m1" 64 15
        (7 / 20) (1 / 5) false = .notReady ∧
    startJobServer ⟨.ready, 0⟩ "j1" = .error .preconditionFailed :=
  ⟨startJob_requires_ready_material.1 [⟨"m1", "mats", .processing, 40, "", 0⟩]
      "t1" "m1" 64 15 (7 / 20) (1 / 5) false ⟨"m1", "mats", .processing, 40, "", 0⟩
      (by decide) (by decide) (by decide) (by decide),
    startJob_requires_ready_material.2.1 ⟨.ready, 0⟩ "j1" (Or.inr rfl)⟩

/-- C8:  The client constructs a result URL only when the job's status
is `done`, and result retrieval is idempotent: it leaves the store
unchanged and successive retrievals for the same job id yield the same
bytes. -/
theorem resultUrl_only_when_done :
    (∀ (jobId : Option String) (status : Option JobStatus) (now : Nat),
      resultUrl jobId status now ≠ none →
      status = some .done ∧ jobId ≠ none) ∧
    (∀ (st : ResultStore) (id : String),
      (retrieveResult st id).2 = st ∧
      (retrieveResult (retrieveResult st id).2 id).1 = (retrieveResult st id).1) := by
  constructor
  · intro jobId status now h
    match jobId with
    | none => simp [resultUrl] at h
    | some id =>
        by_cases hc : id = "" ∨ status ≠ some .done
        · simp [resultUrl, hc] at h
        · push_neg at hc
          exact ⟨hc.2, by simp⟩
  · intro st id
    exact ⟨rfl, rfl⟩

/-- Witness for C8 at concrete inputs: the existence of a result URL for a
concrete `done` job forces the status `done`, and retrieval from a
concrete result store is a pure, repeatable read. -/
theorem resultUrl_only_when_done_witness :
    Option.some JobStatus.done = some .done ∧
    (retrieveResult demoStore ("j1")).2 = demoStore ∧
    (retrieveResult (retrieveResult demoStore ("j1")).2 ("j1")).1 =
      (retrieveResult demoStore ("j1")).1 :=
  ⟨(resultUrl_only_when_done.1 (some ("j1")) (some .done) 5 (by decide)).1,
    resultUrl_only_when_done.2 demoStore ("j1")⟩

lemma pickBestFold_mem (cell : Color) :
    ∀ (rest : List Tile) (first : Tile), pickBestFold cell first rest ∈ first :: rest := by
  intro rest
  induction rest with
  | nil => intro first; simp [pickBestFold]
  | cons u ts ih =>
      intro first
      unfold pickBestFold
      rw [List.foldl_cons]
      by_cases hlt : colorDist cell u.avg < colorDist cell first.avg
      · rw [if_pos hlt]
        have := ih u
        unfold pickBestFold at this
        exact List.mem_cons_of_mem first this
      · rw [if_neg hlt]
        have := ih first
        unfold pickBestFold at this
        rcases List.mem_cons.1 this with h | h
        · exact List.mem_cons.2 (Or.inl h)
        · exact List.mem_cons.2 (Or.inr (List.mem_cons_of_mem u h))

lemma pickBest_mem {cell : Color} {l : List Tile} {t : Tile}
    (h : pickBest cell l = some t) : t ∈ l := by
  match l with
  | [] => simp [pickBest] at h
  | a :: ts =>
      unfold pickBest at h
      cases h
      exact pickBestFold_mem cell ts a

lemma pickBest_isSome {cell : Color} {l : List Tile} (h : l ≠ []) :
    ∃ t, pickBest cell l = some t := by
  match l with
  | [] => exact absurd rfl h
  | a :: ts => exact ⟨pickBestFold cell a ts, rfl⟩

lemma exists_tile_avoiding (tiles : List Tile) (K : Nat) (hist : List Nat)
    (hnd : (tiles.map Tile.id).Nodup) (hK : K < tiles.length) :
    ∃ t ∈ tiles, t.id ∉ hist.take K := by
  by_contra hcon
  push_neg at hcon
  have hsub : (tiles.map Tile.id) ⊆ hist.take K := by
    intro a ha
    rcases List.mem_map.1 ha with ⟨t, ht, rfl⟩
    exact hcon t ht
  have hlen := (List.subperm_of_subset hnd hsub).length_le
  rw [List.length_map] at hlen
  have htake : (hist.take K).length ≤ K := by
    rw [List.length_take]; exact min_le_left _ _
  omega

lemma selectTile_spec (tiles : List Tile) (K : Nat) (hist : List Nat) (cell : Color)
    (hnd : (tiles.map Tile.id).Nodup) (hK : K < tiles.length) :
    ∃ t, selectTile tiles K hist cell = some t ∧ t ∈ tiles ∧ t.id ∉ hist.take K := by
  obtain ⟨w, hw, hwc⟩ := exists_tile_avoiding tiles K hist hnd hK
  have hmemf : w ∈ tiles.filter (fun t => !((hist.take K).contains t.id)) :=
    List.mem_filter.2 ⟨hw, by simpa using hwc⟩
  have hne : tiles.filter (fun t => !((hist.take K).contains t.id)) ≠ [] := by
    intro h0; rw [h0] at hmemf; simp at hmemf
  have hempty : (tiles.filter (fun t => !((hist.take K).contains t.id))).isEmpty = false := by
    rw [List.isEmpty_eq_false]; exact hne
  obtain ⟨t, ht⟩ := @pickBest_isSome cell _ hne
  refine ⟨t, ?_, ?_, ?_⟩
  · unfold selectTile
    rw [hempty]
    simpa using ht
  · exact (List.mem_filter.1 (pickBest_mem ht)).1
  · have h2 := (List.mem_filter.1 (pickBest_mem ht)).2
    simpa using h2

lemma runAssign_cons (tiles : List Tile) (K : Nat) (hist : List Nat)
    (c : Color) (cs : List Color) (t : Tile)
    (hsel : selectTile tiles K hist c = some t) :
    runAssign tiles K hist (c :: cs) = t.id :: runAssign tiles K (t.id :: hist) cs := by
  simp [runAssign, hsel]

lemma runAssign_fresh (tiles : List Tile) (K : Nat)
    (hnd : (tiles.map Tile.id).Nodup) (hK : K < tiles.length) :
    ∀ (cs : List Color) (hist : List Nat) (m a : Nat),
      (runAssign tiles K hist cs)[m]? = some a → m < K →
      a ∉ hist.take (K - m) := by
  intro cs
  induction cs with
  | nil => intro hist m a h _; simp [runAssign] at h
  | cons c cs ih =>
      intro hist m a h hm
      obtain ⟨t, hsel, htm, htid⟩ := selectTile_spec tiles K hist c hnd hK
      rw [runAssign_cons tiles K hist c cs t hsel] at h
      match m with
      | 0 =>
          rw [List.getElem?_cons_zero] at h
          cases h
          simpa using htid
      | m + 1 =>
          rw [List.getElem?_cons_succ] at h
          have hm' : m < K := Nat.lt_of_succ_lt hm
          have hrec := ih (t.id :: hist) m a h hm'
          have hKm : K - m = (K - (m + 1)) + 1 := by omega
          rw [hKm, List.take_succ_cons] at hrec
          intro hmem
          exact hrec (List.mem_cons_of_mem _ hmem)

lemma runAssign_window (tiles : List Tile) (K : Nat)
    (hnd : (tiles.map Tile.id).Nodup) (hK : K < tiles.length) :
    ∀ (cs : List Color) (hist : List Nat) (i j a b : Nat),
      (runAssign tiles K hist cs)[i]? = some a →
      (runAssign tiles K hist cs)[j]? = some b →
      i < j → j ≤ i + K → a ≠ b := by
  intro cs
  induction cs with
  | nil => intro hist i j a b ha _ _ _; simp [runAssign] at ha
  | cons c cs ih =>
      intro hist i j a b ha hb hij hjk
      obtain ⟨t, hsel, htm, htid⟩ := selectTile_spec tiles K hist c hnd hK
      rw [runAssign_cons tiles K hist c cs t hsel] at ha hb
      match j, hij with
      | j + 1, hij =>
          rw [List.getElem?_cons_succ] at hb
          match i with
          | 0 =>
              rw [List.getElem?_cons_zero] at ha
              cases ha
              have hj : j < K := by omega
              have hfresh := runAssign_fresh tiles K hnd hK cs (t.id :: hist) j b hb hj
              have hKj : K - j = (K - j - 1) + 1 := by omega
              rw [hKj, List.take_succ_cons] at hfresh
              intro hab
              exact hfresh (hab ▸ List.mem_cons_self _ _)
          | i + 1 =>
              rw [List.getElem?_cons_succ] at ha
              exact ih (t.id :: hist) i j a b ha hb (by omega) (by omega)

/-- C3: with `noRepeatK = K > 0` and a tile index holding more than `K`
tiles with pairwise distinct identifiers, no tile identifier appears twice
within any window of `K` consecutive assignments in row-major scan order
(positions less than `K` apart never receive the same id); under these
hypotheses the waiver for an empty candidate set never fires, so the
constraint holds at every cell. -/
theorem noRepeatK_window (tiles : List Tile) (K : Nat) (cells : List Color)
    (hnd : (tiles.map Tile.id).Nodup) (_hKpos : 0 < K) (hK : K < tiles.length) :
    ∀ (i j a b : Nat),
      (runAssign tiles K [] cells)[i]? = some a →
      (runAssign tiles K [] cells)[j]? = some b →
      i < j → j < i + K → a ≠ b :=
  fun i j a b ha hb hij hjk =>
    runAssign_window tiles K hnd hK cells [] i j a b ha hb hij (Nat.le_of_lt hjk)

/-- Witness for C3 at concrete inputs: three distinct-id tiles, `K = 2`,
five cells all nearest the same tile — the first two assignments exist and
are distinct ids, by the window theorem at positions 0 and 1. -/
theorem noRepeatK_window_witness :
    (runAssign demoTiles 2 [] demoCells)[0]? = some 0 ∧
    (runAssign demoTiles 2 [] demoCells)[1]? = some 1 ∧
    Ne (0 : Nat) 1 :=
  ⟨by decide, by decide,
    noRepeatK_window demoTiles 2 demoCells (by decide) (by decide) (by decide)
      0 1 0 1 (by decide) (by decide) (by decide) (by decide)⟩

lemma cellStart_lt (len t x0 : Nat) (ht : 0 < t) (hx : x0 ∈ cellStarts len t) :
    x0 < len := by
  rcases List.mem_map.1 hx with ⟨i, hi, rfl⟩
  rw [List.mem_range] at hi
  unfold gridCount at hi
  have h1 : i + 1 ≤ (len + t - 1) / t := hi
  have h2 : (i + 1) * t ≤ ((len + t - 1) / t) * t := Nat.mul_le_mul_right t h1
  have h3 : ((len + t - 1) / t) * t ≤ len + t - 1 := Nat.div_mul_le_self _ _
  have h4 : (i + 1) * t = i * t + t := Nat.succ_mul i t
  omega

lemma cell_extent_le (len t x0 : Nat) (hx0 : x0 < len) :
    x0 + cellSize len t x0 ≤ len := by
  unfold cellSize
  have := min_le_right t (len - x0)
  omega

lemma cell_extent_pos (len t x0 : Nat) (ht : 0 < t) (hx0 : x0 < len) :
    0 < cellSize len t x0 := by
  unfold cellSize
  exact lt_min ht (by omega)

lemma gridCount_pos (len t : Nat) (ht : 0 < t) (hlen : 0 < len) :
    0 < gridCount len t := by
  unfold gridCount
  exact Nat.div_pos (by omega) ht

lemma len_le_gridCount_mul (len t : Nat) (ht : 0 < t) :
    len ≤ gridCount len t * t := by
  unfold gridCount
  have h1 := Nat.div_add_mod (len + t - 1) t
  have h2 : (len + t - 1) % t < t := Nat.mod_lt _ ht
  have h3 : ((len + t - 1) / t) * t = t * ((len + t - 1) / t) := Nat.mul_comm _ _
  omega

lemma foldr_max_le (l : List Nat) (n : Nat) (h : ∀ a ∈ l, a ≤ n) :
    l.foldr max 0 ≤ n := by
  induction l with
  | nil => simp
  | cons a l ih =>
      simp only [List.foldr_cons]
      exact max_le (h a (List.mem_cons_self a l))
        (ih fun b hb => h b (List.mem_cons_of_mem a hb))

lemma le_foldr_max (l : List Nat) (n : Nat) (h : n ∈ l) :
    n ≤ l.foldr max 0 := by
  induction l with
  | nil => simp at h
  | cons a l ih =>
      simp only [List.foldr_cons]
      rcases List.mem_cons.1 h with rfl | hmem
      · exact le_max_left _ _
      · exact le_trans (ih hmem) (le_max_right _ _)

lemma paintedExtent_eq (len t : Nat) (ht : 0 < t) (hlen : 0 < len) :
    paintedExtent len t = len := by
  unfold paintedExtent
  apply le_antisymm
  · apply foldr_max_le
    intro a ha
    rcases List.mem_map.1 ha with ⟨x0, hx0, rfl⟩
    exact cell_extent_le len t x0 (cellStart_lt len t x0 ht hx0)
  · apply le_foldr_max
    have hg := gridCount_pos len t ht hlen
    have hmem : (gridCount len t - 1) * t ∈ cellStarts len t :=
      List.mem_map.2 ⟨gridCount len t - 1, List.mem_range.2 (by omega), rfl⟩
    have hlt := cellStart_lt len t _ ht hmem
    have hmul : (gridCount len t - 1) * t + t = gridCount len t * t := by
      have h0 : gridCount len t - 1 + 1 = gridCount len t := Nat.succ_pred_eq_of_pos hg
      calc (gridCount len t - 1) * t + t
          = (gridCount len t - 1 + 1) * t := (Nat.succ_mul _ t).symm
        _ = gridCount len t * t := by rw [h0]
    have hle := len_le_gridCount_mul len t ht
    have hsize : cellSize len t ((gridCount len t - 1) * t) =
        len - (gridCount len t - 1) * t := by
      unfold cellSize
      exact min_eq_right (by omega)
    refine List.mem_map.2 ⟨(gridCount len t - 1) * t, hmem, ?_⟩
    rw [hsize]
    omega

lemma cell_coverage (len t x : Nat) (ht : 0 < t) (hx : x < len) :
    ∃ x0 ∈ cellStarts len t, x0 ≤ x ∧ x < x0 + cellSize len t x0 := by
  refine ⟨(x / t) * t, ?_, Nat.div_mul_le_self x t, ?_⟩
  · refine List.mem_map.2 ⟨x / t, List.mem_range.2 ?_, rfl⟩
    have h1 : x / t ≤ (len - 1) / t := Nat.div_le_div_right (by omega)
    have h4 : len + t - 1 = (len - 1) + t := by omega
    have h3 : (len + t - 1) / t = (len - 1) / t + 1 := by
      rw [h4]; exact Nat.add_div_right _ ht
    unfold gridCount
    omega
  · have hmod := Nat.div_add_mod x t
    have hmlt : x % t < t := Nat.mod_lt _ ht
    have hcomm : (x / t) * t = t * (x / t) := Nat.mul_comm _ _
    have hle : (x / t) * t ≤ x := Nat.div_mul_le_self x t
    unfold cellSize
    rcases le_total t (len - (x / t) * t) with hmin | hmin
    · rw [min_eq_left hmin]; omega
    · rw [min_eq_right hmin]; omega

lemma cellsOf_cover (W H t x y : Nat) (ht : 0 < t) (hx : x < W) (hy : y < H) :
    ∃ c ∈ cellsOf W H t, cellContains c x y = true := by
  obtain ⟨x0, hx0m, hx0le, hx0lt⟩ := cell_coverage W t x ht hx
  obtain ⟨y0, hy0m, hy0le, hy0lt⟩ := cell_coverage H t y ht hy
  refine ⟨⟨x0, y0, cellSize W t x0, cellSize H t y0⟩, ?_, ?_⟩
  · exact List.mem_flatMap.2 ⟨y0, hy0m, List.mem_map.2 ⟨x0, hx0m, rfl⟩⟩
  · unfold cellContains
    simp only [Bool.and_eq_true, decide_eq_true_eq]
    exact ⟨⟨⟨hx0le, hx0lt⟩, hy0le⟩, hy0lt⟩

lemma cellsOf_fit (W H t : Nat) (ht : 0 < t) :
    ∀ c ∈ cellsOf W H t,
      c.x0 + c.w ≤ W ∧ c.y0 + c.h ≤ H ∧ 0 < c.w ∧ 0 < c.h := by
  intro c hc
  rcases List.mem_flatMap.1 hc with ⟨y0, hy0, hcm⟩
  rcases List.mem_map.1 hcm with ⟨x0, hx0, rfl⟩
  have hxlt := cellStart_lt W t x0 ht hx0
  have hylt := cellStart_lt H t y0 ht hy0
  exact ⟨cell_extent_le W t x0 hxlt, cell_extent_le H t y0 hylt,
    cell_extent_pos W t x0 ht hxlt, cell_extent_pos H t y0 ht hylt⟩

/-- C2: for every valid target image, tile index and valid parameters,
`synthesize` returns an image whose width and height equal the target's;
every pixel of the target lies in some grid cell (cells along a truncated
edge are cropped — each cell fits inside the target and is non-empty —
never omitted). -/
theorem synthesize_preserves_dimensions (target : Img) (tiles : List Tile)
    (tileSize K : Nat) (cs os : ℚ)
    (ht : 0 < tileSize) (hW : 0 < target.width) (hH : 0 < target.height) :
    (synthesize target tiles tileSize K cs os).width = target.width ∧
    (synthesize target tiles tileSize K cs os).height = target.height ∧
    (∀ x y, x < target.width → y < target.height →
      ∃ c ∈ cellsOf target.width target.height tileSize,
        cellContains c x y = true) ∧
    (∀ c ∈ cellsOf target.width target.height tileSize,
      c.x0 + c.w ≤ target.width ∧ c.y0 + c.h ≤ target.height ∧
        0 < c.w ∧ 0 < c.h) := by
  refine ⟨?_, ?_, ?_, ?_⟩
  · show paintedExtent target.width tileSize = target.width
    exact paintedExtent_eq target.width tileSize ht hW
  · show paintedExtent target.height tileSize = target.height
    exact paintedExtent_eq target.height tileSize ht hH
  · intro x y hx hy
    exact cellsOf_cover target.width target.height tileSize x y ht hx hy
  · exact cellsOf_fit target.width target.height tileSize ht

/-- Witness for C2 at concrete inputs: a 100 × 100 target with tile size 64
keeps its dimensions. -/
theorem synthesize_preserves_dimensions_witness :
    (synthesize demoTarget demoTiles 64 2 0 0).width = demoTarget.width ∧
    (synthesize demoTarget demoTiles 64 2 0 0).height = demoTarget.height :=
  ⟨(synthesize_preserves_dimensions demoTarget demoTiles 64 2 0 0
      (by decide) (by decide) (by decide)).1,
    (synthesize_preserves_dimensions demoTarget demoTiles 64 2 0 0
      (by decide) (by decide) (by decide)).2.1⟩

/-- C6: overlayStrength is applied only when the overlay is enabled — a job
submitted with the overlay toggle off carries `overlay_strength = 0`; and
an overlay strength of 0 leaves every pixel of the assembled mosaic
unchanged (and preserves its dimensions), while strength 1 makes every
output pixel equal the original target's pixel. -/
theorem overlayStrength_semantics :
    (∀ (materials : List Material) (st sm : String) (ts k : Nat)
        (cs os : ℚ) (f : JobForm),
      startJob materials st sm ts k cs os false = .submitted f →
      f.overlay_strength = 0) ∧
    (∀ (target mosaic : Img) (x y : Nat),
      (applyOverlay 0 target mosaic).pix x y = ratColor (mosaic.pix x y)) ∧
    (∀ (target mosaic : Img),
      (applyOverlay 0 target mosaic).width = mosaic.width ∧
      (applyOverlay 0 target mosaic).height = mosaic.height) ∧
    (∀ (target mosaic : Img) (x y : Nat),
      (applyOverlay 1 target mosaic).pix x y = ratColor (target.pix x y)) := by
  refine ⟨?_, ?_, ?_, ?_⟩
  · intro materials st sm ts k cs os f h
    unfold startJob at h
    split at h
    · exact StartJobOutcome.noConfusion h
    · split at h
      · split at h
        · exact StartJobOutcome.noConfusion h
        · cases h; simp
      · cases h; simp
  · intro target mosaic x y
    simp [applyOverlay, blendColor, blendChan, ratColor]
  · intro target mosaic
    exact ⟨rfl, rfl⟩
  · intro target mosaic x y
    simp [applyOverlay, blendColor, blendChan, ratColor]

/-- Witness for C6 at concrete inputs: with the toggle off, a concrete
submission carries overlay strength 0. -/
theorem overlayStrength_semantics_witness :
    (JobForm.mk ("t") ("m") 64 15 1 0).overlay_strength = 0 :=
  overlayStrength_semantics.1 [] "t" "m" 64 15 1 1
    (JobForm.mk ("t") ("m") 64 15 1 0) (by decide)

lemma applyUiEvent_preserves (s : UiParams) (e : UiEvent)
    (hs : paramsInBounds s) (he : e.valid = true) :
    paramsInBounds (applyUiEvent s e) := by
  obtain ⟨h1, h2, h3, h4, h5, h6, h7⟩ := hs
  cases e with
  | setTileSize v =>
      simp only [UiEvent.valid, Bool.and_eq_true, decide_eq_true_eq] at he
      exact ⟨he.1, he.2, by positivity, h4, h5, h6, h7⟩
  | setNoRepeatK v =>
      exact ⟨h1, h2, by positivity, h4, h5, h6, h7⟩
  | setColorStrength v =>
      simp only [UiEvent.valid, Bool.and_eq_true, decide_eq_true_eq] at he
      exact ⟨h1, h2, h3, he.1, he.2, h6, h7⟩
  | setOverlayStrength v =>
      simp only [UiEvent.valid, Bool.and_eq_true, decide_eq_true_eq] at he
      exact ⟨h1, h2, h3, h4, h5, he.1, he.2⟩
  | setOverlayEnabled b =>
      exact ⟨h1, h2, h3, h4, h5, h6, h7⟩

lemma foldl_applyUiEvent_preserves :
    ∀ (events : List UiEvent) (s : UiParams), paramsInBounds s →
      (∀ e ∈ events, e.valid = true) →
      paramsInBounds (events.foldl applyUiEvent s) := by
  intro events
  induction events with
  | nil => intro s hs _; exact hs
  | cons e es ih =>
      intro s hs hv
      rw [List.foldl_cons]
      exact ih (applyUiEvent s e)
        (applyUiEvent_preserves s e hs (hv e (List.mem_cons_self e es)))
        (fun d hd => hv d (List.mem_cons_of_mem e hd))

lemma initialUiParams_inBounds : paramsInBounds initialUiParams := by
  unfold paramsInBounds initialUiParams
  norm_num

/-- C7: every MosaicParameters bundle submittable through the interface
satisfies the documented bounds — the initial state does, every sequence
of slider interactions (each constrained by its control's `min`/`max`)
keeps the state in bounds, and any form a bounded state submits has
`tile_size` in [8, 256], `no_repeat_k` a non-negative integer, and both
strengths in [0, 1]. -/
theorem uiParams_bounds :
    paramsInBounds initialUiParams ∧
    (∀ events : List UiEvent, (∀ e ∈ events, e.valid = true) →
      paramsInBounds (events.foldl applyUiEvent initialUiParams)) ∧
    (∀ (s : UiParams) (materials : List Material) (st sm : String)
        (f : JobForm),
      paramsInBounds s →
      startJob materials st sm s.tileSize s.noRepeatK s.colorStrength
        s.overlayStrength s.overlayEnabled = .submitted f →
      8 ≤ f.tile_size ∧ f.tile_size ≤ 256 ∧ (0 : ℤ) ≤ (f.no_repeat_k : ℤ) ∧
        0 ≤ f.color_strength ∧ f.color_strength ≤ 1 ∧
        0 ≤ f.overlay_strength ∧ f.overlay_strength ≤ 1) := by
  refine ⟨initialUiParams_inBounds, ?_, ?_⟩
  · intro events hv
    exact foldl_applyUiEvent_preserves events initialUiParams
      initialUiParams_inBounds hv
  · intro s materials st sm f hs h
    obtain ⟨h1, h2, h3, h4, h5, h6, h7⟩ := hs
    unfold startJob at h
    split at h
    · exact StartJobOutcome.noConfusion h
    · split at h
      · split at h
        · exact StartJobOutcome.noConfusion h
        · cases h
          refine ⟨h1, h2, h3, h4, h5, ?_, ?_⟩ <;>
            · cases hov : s.overlayEnabled <;> simp [hov, h6, h7]
      · cases h
        refine ⟨h1, h2, h3, h4, h5, ?_, ?_⟩ <;>
          · cases hov : s.overlayEnabled <;> simp [hov, h6, h7]

/-- Witness for C7 at concrete inputs: a concrete interaction sequence
within the sliders' limits keeps the parameter state in bounds. -/
theorem uiParams_bounds_witness :
    paramsInBounds
      ([UiEvent.setTileSize 200, UiEvent.setColorStrength 1,
        UiEvent.setOverlayEnabled true].foldl applyUiEvent initialUiParams) :=
  uiParams_bounds.2.1
    [UiEvent.setTileSize 200, UiEvent.setColorStrength 1,
      UiEvent.setOverlayEnabled true] (by decide)

lemma progressGo_head_le {S : Type} (running finished : S) (N : Nat)
    (k i : Nat) (hik : i + k = N) :
    ∀ p ∈ (progressGo running finished N i k).head?, i * 100 / N ≤ p.2 := by
  cases k with
  | zero =>
      intro p hp
      simp only [progressGo, List.head?_cons, Option.mem_def, Option.some.injEq] at hp
      have h1 : i * 100 ≤ N * 100 := Nat.mul_le_mul_right 100 (by omega)
      have h2 : i * 100 / N ≤ N * 100 / N := Nat.div_le_div_right h1
      have h3 : N * 100 / N ≤ 100 := Nat.div_le_of_le_mul (by omega)
      rw [← hp]
      simp only
      omega
  | succ k =>
      intro p hp
      simp only [progressGo, List.head?_cons, Option.mem_def, Option.some.injEq] at hp
      rw [← hp]

lemma progressGo_chain {S : Type} (running finished : S) (N : Nat) :
    ∀ (k i : Nat), i + k = N →
      List.Chain' (fun a b => a.2 ≤ b.2) (progressGo running finished N i k) := by
  intro k
  induction k with
  | zero => intro i _; exact List.chain'_singleton _
  | succ k ih =>
      intro i hik
      rw [progressGo]
      refine List.chain'_cons'.2 ⟨?_, ih (i + 1) (by omega)⟩
      intro p hp
      have hhead := progressGo_head_le running finished N k (i + 1) (by omega) p hp
      have hmono : i * 100 / N ≤ (i + 1) * 100 / N :=
        Nat.div_le_div_right (Nat.mul_le_mul_right 100 (by omega))
      omega

lemma progressGo_getLast {S : Type} (running finished : S) (N : Nat) :
    ∀ (k i : Nat),
      (progressGo running finished N i k).getLast? = some (finished, 100) := by
  intro k
  induction k with
  | zero => intro i; rfl
  | succ k ih =>
      intro i
      have h := ih (i + 1)
      rw [progressGo]
      cases hk : progressGo running finished N (i + 1) k with
      | nil => rw [hk] at h; simp at h
      | cons p rest =>
          rw [hk] at h
          rw [List.getLast?_cons_cons]
          exact h

lemma progressGo_hundred {S : Type} (running finished : S) (N : Nat)
    (hN : 0 < N) :
    ∀ (k i : Nat), i + k = N →
      ∀ p ∈ progressGo running finished N i k, p.2 = 100 → p.1 = finished := by
  intro k
  induction k with
  | zero =>
      intro i _ p hp _
      simp only [progressGo, List.mem_singleton] at hp
      rw [hp]
  | succ k ih =>
      intro i hik p hp h100
      rw [progressGo] at hp
      rcases List.mem_cons.1 hp with rfl | hp
      · exfalso
        have hi : i < N := by omega
        have hlt : i * 100 / N < 100 := by
          rw [Nat.div_lt_iff_lt_mul hN]
          calc i * 100 < N * 100 := by
                exact Nat.mul_lt_mul_of_lt_of_le hi (le_refl 100) (by omega)
            _ = 100 * N := Nat.mul_comm _ _
        simp only at h100
        omega
      · exact ih (i + 1) (by omega) p hp h100

lemma progressTrace_props {S : Type} (q r f : S) (N : Nat) (hN : 0 < N) :
    List.Chain' (fun a b => a.2 ≤ b.2) (progressTrace q r f N) ∧
    (progressTrace q r f N).getLast? = some (f, 100) ∧
    (∀ p ∈ progressTrace q r f N, p.2 = 100 → p.1 = f) := by
  refine ⟨?_, ?_, ?_⟩
  · refine List.chain'_cons'.2 ⟨?_, progressGo_chain r f N N 0 (by omega)⟩
    intro p _
    exact Nat.zero_le _
  · unfold progressTrace
    have h := progressGo_getLast r f N N 0
    cases hk : progressGo r f N 0 N with
    | nil => rw [hk] at h; simp at h
    | cons p rest =>
        rw [hk] at h
        rw [List.getLast?_cons_cons]
        exact h
  · intro p hp h100
    unfold progressTrace at hp
    rcases List.mem_cons.1 hp with rfl | hp
    · simp at h100
    · exact progressGo_hundred r f N hN N 0 (by omega) p hp h100

lemma failGo_head_ge {S : Type} (running failedS : S) (N : Nat)
    (k i last : Nat) (hle : last ≤ i * 100 / N) :
    ∀ p ∈ (failGo running failedS N last i k).head?, last ≤ p.2 := by
  cases k with
  | zero =>
      intro p hp
      simp only [failGo, List.head?_cons, Option.mem_def, Option.some.injEq] at hp
      rw [← hp]
  | succ k =>
      intro p hp
      simp only [failGo, List.head?_cons, Option.mem_def, Option.some.injEq] at hp
      rw [← hp]
      exact hle

lemma failGo_chain {S : Type} (running failedS : S) (N : Nat) :
    ∀ (k i last : Nat), last ≤ i * 100 / N →
      List.Chain' (fun a b => a.2 ≤ b.2) (failGo running failedS N last i k) := by
  intro k
  induction k with
  | zero => intro i last _; exact List.chain'_singleton _
  | succ k ih =>
      intro i last hle
      rw [failGo]
      have hmono : i * 100 / N ≤ (i + 1) * 100 / N :=
        Nat.div_le_div_right (Nat.mul_le_mul_right 100 (by omega))
      refine List.chain'_cons'.2 ⟨?_, ih (i + 1) (i * 100 / N) hmono⟩
      intro p hp
      exact failGo_head_ge running failedS N k (i + 1) (i * 100 / N) hmono p hp

lemma failGo_hundred {S : Type} (running failedS : S) (N : Nat) (hN : 0 < N) :
    ∀ (k i last : Nat), i + k ≤ N →
      ∀ p ∈ failGo running failedS N last i k, p.2 = 100 → p.1 = failedS := by
  intro k
  induction k with
  | zero =>
      intro i last _ p hp _
      simp only [failGo, List.mem_singleton] at hp
      rw [hp]
  | succ k ih =>
      intro i last hik p hp h100
      rw [failGo] at hp
      rcases List.mem_cons.1 hp with rfl | hp
      · exfalso
        have hi : i < N := by omega
        have hlt : i * 100 / N < 100 := by
          rw [Nat.div_lt_iff_lt_mul hN]
          calc i * 100 < N * 100 := by
                exact Nat.mul_lt_mul_of_lt_of_le hi (le_refl 100) (by omega)
            _ = 100 * N := Nat.mul_comm _ _
        simp only at h100
        omega
      · exact ih (i + 1) (i * 100 / N) (by omega) p hp h100

lemma failTrace_props {S : Type} (q r e : S) (N f : Nat) (hN : 0 < N)
    (hf : f ≤ N) :
    List.Chain' (fun a b => a.2 ≤ b.2) (failTrace q r e N f) ∧
    (∀ p ∈ failTrace q r e N f, p.2 = 100 → p.1 = e) := by
  constructor
  · refine List.chain'_cons'.2 ⟨?_, failGo_chain r e N f 0 0 (Nat.zero_le _)⟩
    intro p _
    exact Nat.zero_le _
  · intro p hp h100
    unfold failTrace at hp
    rcases List.mem_cons.1 hp with rfl | hp
    · simp at h100
    · exact failGo_hundred r e N hN f 0 0 (by omega) p hp h100

/-- C4: for every job — mosaic or material ingest, ending in success or in
error — the progress values in the trace of emitted snapshots form a
non-decreasing sequence and a progress of 100 occurs only at a terminal
snapshot; a successful trace moreover ends at exactly 100 with the
success status, while a failing trace ends in `error` holding its last
reported progress. -/
theorem progress_monotone_terminal (N f : Nat) (hN : 0 < N) (hf : f ≤ N) :
    (List.Chain' (fun a b => a.2 ≤ b.2) (mosaicProgressTrace N) ∧
      (mosaicProgressTrace N).getLast? = some (.done, 100) ∧
      (∀ p ∈ mosaicProgressTrace N, p.2 = 100 → p.1 = .done)) ∧
    (List.Chain' (fun a b => a.2 ≤ b.2) (ingestProgressTrace N) ∧
      (ingestProgressTrace N).getLast? = some (.ready, 100) ∧
      (∀ p ∈ ingestProgressTrace N, p.2 = 100 → p.1 = .ready)) ∧
    (List.Chain' (fun a b => a.2 ≤ b.2) (mosaicFailTrace N f) ∧
      (∀ p ∈ mosaicFailTrace N f, p.2 = 100 → p.1 = .error)) ∧
    (List.Chain' (fun a b => a.2 ≤ b.2) (ingestFailTrace N f) ∧
      (∀ p ∈ ingestFailTrace N f, p.2 = 100 → p.1 = .error)) :=
  ⟨progressTrace_props JobStatus.queued JobStatus.running JobStatus.done N hN,
    progressTrace_props MaterialStatus.queued MaterialStatus.processing
      MaterialStatus.ready N hN,
    failTrace_props JobStatus.queued JobStatus.running JobStatus.error N f hN hf,
    failTrace_props MaterialStatus.queued MaterialStatus.processing
      MaterialStatus.error N f hN hf⟩

/-- Witness for C4 at concrete inputs: the traces of a four-unit mosaic
job and ingest job are non-decreasing and end done/ready at exactly 100,
and the traces of the same jobs failing after two snapshots are also
non-decreasing. -/
theorem progress_monotone_terminal_witness :
    (List.Chain' (fun a b => a.2 ≤ b.2) (mosaicProgressTrace 4) ∧
      (mosaicProgressTrace 4).getLast? = some (.done, 100)) ∧
    (List.Chain' (fun a b => a.2 ≤ b.2) (ingestProgressTrace 4) ∧
      (ingestProgressTrace 4).getLast? = some (.ready, 100)) ∧
    (List.Chain' (fun a b => a.2 ≤ b.2) (mosaicFailTrace 4 2) ∧
      List.Chain' (fun a b => a.2 ≤ b.2) (ingestFailTrace 4 2)) :=
  ⟨⟨(progress_monotone_terminal 4 2 (by decide) (by decide)).1.1,
      (progress_monotone_terminal 4 2 (by decide) (by decide)).1.2.1⟩,
    ⟨(progress_monotone_terminal 4 2 (by decide) (by decide)).2.1.1,
      (progress_monotone_terminal 4 2 (by decide) (by decide)).2.1.2.1⟩,
    ⟨(progress_monotone_terminal 4 2 (by decide) (by decide)).2.2.1.1,
      (progress_monotone_terminal 4 2 (by decide) (by decide)).2.2.2.1⟩⟩

end PixMo
